import Mathlib

/-!
Verification of the RAG news bot backend core against its specification.

The embedding models, from the JavaScript source:
- the text chunker `chunkText` (src/backend/src/ingest/ingest.js),
- the retrieval filter and citation deduplication in `handleChat`
  (src/backend/src/chat/rag.js),
- the session store `appendMessage` / `getHistory` in-memory backend
  (src/backend/src/cache/redis.js),
- the history formatting of `answerWithContext` and the retry wrapper
  `retryWithBackoff` (src/backend/src/llm/gemini.js),
- the batch ingestion loop of `main` (src/backend/src/ingest/ingest.js).

JS strings are modelled as `List Char`, JS numbers used as array indices as
`Nat`/`Int`, similarity scores as `Rat`, thrown exceptions as `Except`.
-/

namespace RagBot

/-! ## Chunker (src/backend/src/ingest/ingest.js, chunkText) -/

/-- ASCII whitespace stripped by JS `String.prototype.trim`. -/
def isJsSpace (c : Char) : Bool :=
  c = ' ' || c = '\t' || c = '\n' || c = '\r'

/-- JS `s.trim()`. -/
def jsTrim (s : List Char) : List Char :=
  ((s.dropWhile isJsSpace).reverse.dropWhile isJsSpace).reverse

/-- JS `s.slice(i, j)` for `0 ≤ i ≤ j` (the only way chunkText calls it). -/
def jsSlice (s : List Char) (i j : Nat) : List Char :=
  (s.take j).drop i

/-- Helper for `jsLastIndexOf`: scan `l`, remembering the index (offset by
`j0`) of the last occurrence of `c`; `b` is the best index found so far. -/
def lastIdxAux (c : Char) : List Char → Nat → Option Nat → Option Nat
  | [], _, b => b
  | x :: xs, j0, b => lastIdxAux c xs (j0 + 1) (if x = c then some j0 else b)

/-- JS `s.lastIndexOf(c, fromIdx)`: the largest index `≤ fromIdx` holding
`c`, or `-1` when there is none (the `fromIdx` position itself is included
in the search, which is why a chunk can end one past the window). -/
def jsLastIndexOf (s : List Char) (c : Char) (fromIdx : Nat) : Int :=
  match lastIdxAux c (s.take (fromIdx + 1)) 0 none with
  | some j => (j : Int)
  | none => -1

/-- `Math.max(lastPeriod, lastExclamation, lastQuestion)` in chunkText. -/
def lastSentenceEnd (text : List Char) (e : Nat) : Int :=
  max (max (jsLastIndexOf text '.' e) (jsLastIndexOf text '!' e))
    (jsLastIndexOf text '?' e)

/-- The end position chosen for the chunk starting at `i`:
`end = min(text.length, i + maxChars)`, moved to just past the last
sentence terminator when one occurs later than 70% into the window.
(`maxChars * 7 / 10` equals the JS float `maxChars * 0.7` at the default
`maxChars = 1500`, where both give exactly 1050.) -/
def chunkEnd (text : List Char) (maxChars i : Nat) : Nat :=
  let end0 := min text.length (i + maxChars)
  if end0 < text.length then
    let ls := lastSentenceEnd text end0
    if ((i + maxChars * 7 / 10 : Nat) : Int) < ls then ls.toNat + 1 else end0
  else end0

/-- The `while (i < text.length && chunkCount < maxChunks)` loop of
chunkText; `fuel` is `maxChunks - chunkCount`.  Each iteration trims the
slice, keeps it only when longer than 100 chars, and moves the cursor to
`end - overlap` clamped at 0 (which `Nat` subtraction gives directly). -/
def chunkLoop (text : List Char) (maxChars overlap : Nat) : Nat → Nat → List (List Char)
  | 0, _ => []
  | fuel + 1, i =>
    if i < text.length then
      let e := chunkEnd text maxChars i
      let chunk := jsTrim (jsSlice text i e)
      if 100 < chunk.length then
        chunk :: chunkLoop text maxChars overlap fuel (e - overlap)
      else
        chunkLoop text maxChars overlap fuel (e - overlap)
    else []

/-- `chunkText(text, maxChars = 1500, overlap = 150)` with
`maxChunks = 30`; the trailing `.filter(Boolean)` drops empty strings. -/
def chunkText (text : List Char) (maxChars : Nat := 1500) (overlap : Nat := 150) :
    List (List Char) :=
  (chunkLoop text maxChars overlap 30 0).filter (fun c => !c.isEmpty)

/-! ## Retrieval filter and citations (src/backend/src/chat/rag.js, handleChat) -/

/-- A scored search result from the vector store. -/
structure Candidate where
  score : Rat
  title : String
  url : String
  text : String
deriving DecidableEq

/-- The similarity threshold `0.6` of handleChat. -/
def minScore : Rat := mkRat 6 10

/-- `searchResults.filter(result => result.score >= 0.6)`. -/
def filteredResults (rs : List Candidate) : List Candidate :=
  rs.filter (fun r => decide (minScore ≤ r.score))

/-- `filteredResults.length > 0 ? filteredResults : searchResults.slice(0, 3)`. -/
def finalResults (rs : List Candidate) : List Candidate :=
  if 0 < (filteredResults rs).length then filteredResults rs else rs.take 3

/-- A deduplicated citation, as handleChat builds it. -/
structure Citation where
  title : String
  url : String
  score : Rat
deriving DecidableEq

/-- `{ title: result.title, url: result.url, score: result.score }`. -/
def mkCitation (r : Candidate) : Citation :=
  ⟨r.title, r.url, r.score⟩

/-- `citationsMap.set(key, ...)` on a key already present: a JS Map keeps
the entry at its original insertion position, so this replaces the (under
the Map invariant unique) entry whose url matches. -/
def setCite : List Citation → Candidate → List Citation
  | [], r => [mkCitation r]
  | e :: rest, r =>
    if e.url = r.url then mkCitation r :: rest else e :: setCite rest r

/-- One iteration of
`if (!citationsMap.has(key) || result.score > citationsMap.get(key).score) set(...)`;
the insertion-ordered JS Map is modelled as an insertion-ordered list. -/
def citeStep (acc : List Citation) (r : Candidate) : List Citation :=
  match acc.find? (fun e => e.url == r.url) with
  | none => acc ++ [mkCitation r]
  | some e => if e.score < r.score then setCite acc r else acc

/-- The citation deduplication loop followed by
`Array.from(citationsMap.values())`. -/
def dedupeCitations (rs : List Candidate) : List Citation :=
  rs.foldl citeStep []

/-- The first occurrence of each element, in input order: what the key set
of an insertion-ordered JS Map is after inserting every element. -/
def firstOccs (l : List String) : List String :=
  match l with
  | [] => []
  | u :: us => u :: firstOccs (us.filter (fun v => v != u))
termination_by l.length
decreasing_by
  simp only [List.length_cons]
  exact Nat.lt_succ_of_le (List.length_filter_le _ _)

/-- The maximum score among the candidates of `p` whose url is `u`
(`none` when no candidate has that url). -/
def maxScoreIn (u : String) : List Candidate → Option Rat
  | [] => none
  | c :: rest =>
    match maxScoreIn u rest with
    | none => if c.url = u then some c.score else none
    | some m => if c.url = u then some (max c.score m) else some m

/-- Invariant tying the processed prefix `p` of the candidate list to the
citation accumulator `acc`: the accumulator holds one entry per distinct
url of `p`, in first-occurrence order, each carrying the maximum score seen
for its url. -/
def CiteInv (p : List Candidate) (acc : List Citation) : Prop :=
  acc.map (fun e => e.url) = firstOccs (p.map (fun r => r.url))
  ∧ ∀ e ∈ acc, maxScoreIn e.url p = some e.score

/-! ## Session store (src/backend/src/cache/redis.js, in-memory backend)

`appendMessage` pushes one entry to the end of the per-key list and
`getHistory` returns the whole list (`mem.get(k) || []`); the Redis branch
performs the same append (`rPush`) and read-all (`lRange(k, 0, -1)`).  A
missing or expired key is a key whose list is `[]`. -/

/-- One stored conversation turn: `JSON.stringify({ ...msg, ts: Date.now() })`
where `msg` is `{ message, role }`. -/
structure StoredTurn where
  message : String
  role : String
  ts : Nat
deriving DecidableEq

/-- `` KEY = (sid) => `chat:${sid}` ``. -/
def KEY (sid : String) : String := "chat:" ++ sid

/-- The in-memory map `mem`, absent keys reading as the empty list. -/
def Store := String → List StoredTurn

/-- A store with no sessions. -/
def emptyStore : Store := fun _ => []

/-- `appendMessage(sessionId, msg)`: append `{ ...msg, ts }` to the
session's list (`now` stands for `Date.now()`). -/
def appendMessage (sid : String) (message role : String) (now : Nat) (mem : Store) :
    Store :=
  fun k => if k = KEY sid then mem k ++ [⟨message, role, now⟩] else mem k

/-- `getHistory(sessionId)`: `mem.get(k) || []`. -/
def getHistory (sid : String) (mem : Store) : List StoredTurn :=
  mem (KEY sid)

/-- A sequence of `appendMessage` calls, each a `(message, role, ts)`. -/
def appendAll (sid : String) (msgs : List (String × String × Nat)) (mem : Store) :
    Store :=
  msgs.foldl (fun st m => appendMessage sid m.1 m.2.1 m.2.2 st) mem

/-! ## Prompt history formatting (src/backend/src/llm/gemini.js, answerWithContext) -/

/-- JS property access on a stored turn object, which has exactly the
properties `message`, `role` and `ts` that `appendMessage` wrote. -/
def StoredTurn.jsGet (t : StoredTurn) : String → Option String
  | "message" => some t.message
  | "role" => some t.role
  | "ts" => some (toString t.ts)
  | _ => none

/-- Rendering a JS value inside a template literal: a missing property is
`undefined` and renders as the string "undefined". -/
def jsTemplate : Option String → String
  | some s => s
  | none => "undefined"

/-- `` `${m.role.toUpperCase()}: ${m.content}` `` — note the code reads the
property `content`, which the store never writes. -/
def formatHistLine (m : StoredTurn) : String :=
  (jsTemplate (m.jsGet "role")).toUpper ++ ": " ++ jsTemplate (m.jsGet "content")

/-- `history.slice(-6).map(...).join("\n")`. -/
def histText (history : List StoredTurn) : String :=
  String.intercalate "\n"
    ((history.drop (history.length - 6)).map formatHistLine)

/-! ## Retry wrapper (src/backend/src/llm/gemini.js, retryWithBackoff) -/

/-- A thrown JS error as the retry wrapper inspects it: `status` stands for
`error?.status ?? error?.response?.status`, `msg` for `String(error?.message)`. -/
structure JsError where
  status : Option Int
  msg : String
deriving DecidableEq

/-- Whether `pat` occurs at the start of `s`. -/
def leadsWith : List Char → List Char → Bool
  | [], _ => true
  | _ :: _, [] => false
  | a :: as, b :: bs => a == b && leadsWith as bs

/-- Whether `pat` occurs anywhere in `s`. -/
def hasSubstr (pat : List Char) : List Char → Bool
  | [] => pat.isEmpty
  | c :: rest => leadsWith pat (c :: rest) || hasSubstr pat rest

/-- The transient-error classifier:
`status === 503 || 502 || 500 || 504 || 429 || /overload|quota|rate|exceed/i.test(msg)`. -/
def isTransient (e : JsError) : Bool :=
  e.status = some 503 || e.status = some 502 || e.status = some 500 ||
  e.status = some 504 || e.status = some 429 ||
  hasSubstr "overload".toList (e.msg.toList.map Char.toLower) ||
  hasSubstr "quota".toList (e.msg.toList.map Char.toLower) ||
  hasSubstr "rate".toList (e.msg.toList.map Char.toLower) ||
  hasSubstr "exceed".toList (e.msg.toList.map Char.toLower)

/-- The outcome of one invocation of the wrapped operation. -/
inductive Outcome (α : Type) where
  | ok : α → Outcome α
  | err : JsError → Outcome α

/-- What a call to the retry wrapper did: its result (`Except.ok none` is
the `undefined` the JS function returns when the loop body never returns),
how many times the operation was invoked, and the backoff delays slept. -/
structure RetryTrace (α : Type) where
  result : Except JsError (Option α)
  calls : Nat
  delays : List Nat

/-- The `for (let i = 0; i < maxRetries; i++)` loop of retryWithBackoff;
`fuel = maxRetries - i`.  On the last attempt the error is rethrown before
classification; otherwise transient errors sleep `baseDelay * 2^i` and
retry, and permanent errors are rethrown at once. -/
def retryGo {α : Type} (f : Nat → Outcome α) (maxRetries baseDelay : Nat) :
    Nat → Nat → RetryTrace α
  | 0, _ => ⟨Except.ok none, 0, []⟩
  | fuel + 1, i =>
    match f i with
    | Outcome.ok a => ⟨Except.ok (some a), 1, []⟩
    | Outcome.err e =>
      if i = maxRetries - 1 then ⟨Except.error e, 1, []⟩
      else if isTransient e then
        let t := retryGo f maxRetries baseDelay fuel (i + 1)
        ⟨t.result, t.calls + 1, baseDelay * 2 ^ i :: t.delays⟩
      else ⟨Except.error e, 1, []⟩

/-- `retryWithBackoff(fn, maxRetries = 3, baseDelay = 1000)`; `f i` is what
the `i`-th invocation of `fn` does. -/
def retryWithBackoff {α : Type} (f : Nat → Outcome α) (maxRetries : Nat := 3)
    (baseDelay : Nat := 1000) : RetryTrace α :=
  retryGo f maxRetries baseDelay maxRetries 0

/-! ## Chat orchestrator (src/backend/src/chat/rag.js, handleChat) -/

/-- A context document: a candidate stripped of its score. -/
structure ContextDoc where
  title : String
  text : String
  url : String
deriving DecidableEq

/-- `{ title: result.title, text: result.text, url: result.url }`. -/
def toContextDoc (r : Candidate) : ContextDoc :=
  ⟨r.title, r.text, r.url⟩

/-- The external collaborators of one handleChat request, plus whether each
of the two `appendMessage` calls succeeds (the store can be unreachable). -/
structure ChatEnv where
  embed : String → Except JsError (List Rat)
  search : List Rat → Nat → Except JsError (List Candidate)
  generate : String → List ContextDoc → List StoredTurn → Except JsError String
  appendOk : Nat → Bool
  now : Nat

/-- The generic error handleChat rethrows from its catch block:
`throw new Error('Failed to process chat message')`. -/
def genericChatError : JsError :=
  ⟨none, "Failed to process chat message"⟩

/-- `handleChat({ sessionId, message })`: load history, embed, search,
filter, generate, dedupe citations, then append the user turn and the
assistant turn in that order.  Returns the reply with citations and the
session store as the request leaves it. -/
def handleChat (env : ChatEnv) (store : Store) (sessionId message : String) :
    Except JsError (String × List Citation) × Store :=
  let history := getHistory sessionId store
  match env.embed message with
  | Except.error _ => (Except.error genericChatError, store)
  | Except.ok queryVector =>
    match env.search queryVector 8 with
    | Except.error _ => (Except.error genericChatError, store)
    | Except.ok searchResults =>
      let fin := finalResults searchResults
      let contextDocs := fin.map toContextDoc
      match env.generate message contextDocs history with
      | Except.error _ => (Except.error genericChatError, store)
      | Except.ok reply =>
        let citations := dedupeCitations fin
        if env.appendOk 0 then
          let store1 := appendMessage sessionId message "user" env.now store
          if env.appendOk 1 then
            (Except.ok (reply, citations),
              appendMessage sessionId reply "assistant" env.now store1)
          else (Except.error genericChatError, store1)
        else (Except.error genericChatError, store)

/-! ## Ingestion batch loop (src/backend/src/ingest/ingest.js, main) -/

/-- A scraped document. -/
structure Doc where
  url : String
  title : String
  text : String

/-- The external collaborators of the ingestion loop for one URL:
`scrape` may throw; `persist` stands for the embedding calls plus the
vector-store upsert, either of which may throw. -/
structure IngestEnv where
  scrape : String → Except JsError Doc
  persist : String → Except JsError Unit

/-- How the loop body ends for one URL. -/
inductive StepResult where
  | success
  | skipped
  | failed
deriving DecidableEq

/-- One iteration of the `for` loop over URLs: the whole body is inside a
`try`/`catch`, a document with `!doc.text || doc.text.length < 500` is
skipped with `continue`, and `processed++` runs only after the upsert. -/
def stepResult (env : IngestEnv) (url : String) : StepResult :=
  match env.scrape url with
  | Except.error _ => StepResult.failed
  | Except.ok doc =>
    if doc.text.length < 500 then StepResult.skipped
    else
      match env.persist url with
      | Except.error _ => StepResult.failed
      | Except.ok _ => StepResult.success

/-- The `processed` counter after the loop. -/
def processedCount (env : IngestEnv) (urls : List String) : Nat :=
  urls.foldl (fun n u => if stepResult env u = StepResult.success then n + 1 else n) 0

/-- The final report `Ingested processed/total`. -/
def ingestReport (env : IngestEnv) (urls : List String) : Nat × Nat :=
  (processedCount env urls, urls.length)

/-! ## Concrete inputs used to exercise the theorems -/

/-- A 1200-character text with no sentence punctuation (spec scenario A). -/
def textA : List Char := List.replicate 1200 'a'

/-- 1500 letters, then a period exactly at the window end, then more text:
the backward sentence search finds index 1500 (inclusive `fromIndex`), so
the first chunk gets 1501 characters. -/
def textDot : List Char :=
  List.replicate 1500 'a' ++ ['.'] ++ List.replicate 200 'a'

/-- A request environment whose second `appendMessage` fails. -/
def envBad : ChatEnv where
  embed := fun _ => Except.ok []
  search := fun _ _ => Except.ok []
  generate := fun _ _ _ => Except.ok "hi"
  appendOk := fun n => n == 0
  now := 5

/-- A request environment where every step succeeds. -/
def envOk : ChatEnv where
  embed := fun _ => Except.ok []
  search := fun _ _ => Except.ok []
  generate := fun _ _ _ => Except.ok "ok"
  appendOk := fun _ => true
  now := 7

/-- Five candidates all scoring below the 0.6 threshold (spec scenario C). -/
def rsLow : List Candidate :=
  [⟨mkRat 1 2, "t1", "a", "x"⟩, ⟨mkRat 2 5, "t2", "b", "x"⟩,
   ⟨mkRat 3 10, "t3", "c", "x"⟩, ⟨mkRat 1 4, "t4", "d", "x"⟩,
   ⟨mkRat 1 5, "t5", "e", "x"⟩]

/-- Candidates with a repeated url, the later occurrence scoring higher. -/
def rsDup : List Candidate :=
  [⟨mkRat 9 10, "t1", "a", "x"⟩, ⟨mkRat 1 2, "t2", "b", "x"⟩,
   ⟨mkRat 19 20, "t3", "a", "x"⟩]

/-- An operation failing transiently twice, then succeeding. -/
def fOp : Nat → Outcome Nat :=
  fun i => if i < 2 then Outcome.err ⟨some 503, ""⟩ else Outcome.ok 7

/-- An operation failing permanently on the first call. -/
def gOp : Nat → Outcome Nat :=
  fun _ => Outcome.err ⟨some 401, "bad auth"⟩

/-- An ingestion environment: url "a" fails to scrape, url "u" scrapes to
a 5-character text (below the 500 floor), url "b" scrapes to a 500-character
text and persists fine. -/
def envIngest : IngestEnv where
  scrape := fun url =>
    if url = "a" then Except.error ⟨none, "fetch failed"⟩
    else if url = "u" then Except.ok ⟨"u", "t", "short"⟩
    else Except.ok ⟨"b", "t", String.mk (List.replicate 500 'x')⟩
  persist := fun _ => Except.ok ()

/-- The document `envIngest.scrape "u"` yields. -/
def docShort : Doc := ⟨"u", "t", "short"⟩

/-! ## Theorems -/

set_option maxRecDepth 1000000

/-- C1: the spec says a text shorter than `maxChars` yields exactly one
chunk (scenario A: a 1200-character document with no sentence punctuation
gives 1 chunk).  The code instead yields 30 chunks on that input: the
cursor update `i = end - overlap` keeps `i` strictly below `text.length`
forever, so the loop stops only at the `maxChunks = 30` guard, emitting the
full text once and then the same 150-character tail 29 more times. -/
theorem chunkText_1200_returns_30 :
    (chunkText textA 1500 150).length = 30 := by decide

/-- C10: `retryWithBackoff(fn, 0)` never enters the loop, so the wrapped
operation is not invoked at all and the function returns `undefined`
(modelled `Except.ok none`) rather than an error. -/
theorem retryWithBackoff_zero {α : Type} (f : Nat → Outcome α) (d : Nat) :
    retryWithBackoff f 0 d = ⟨Except.ok none, 0, []⟩ := rfl

/-- Scanning `l` from offset `j0` can only report an index below
`j0 + l.length`, provided the incoming best index is already below `j0`. -/
theorem lastIdxAux_lt (c : Char) (l : List Char) :
    ∀ (j0 : Nat) (b : Option Nat) (j : Nat),
      (∀ jb, b = some jb → jb < j0) → lastIdxAux c l j0 b = some j →
      j < j0 + l.length := by
  induction l with
  | nil =>
    intro j0 b j hb h
    simp only [lastIdxAux] at h
    simpa using hb j h
  | cons x xs ih =>
    intro j0 b j hb h
    simp only [lastIdxAux] at h
    have hb' : ∀ jb, (if x = c then some j0 else b) = some jb → jb < j0 + 1 := by
      intro jb hjb
      by_cases hx : x = c
      · simp [hx] at hjb
        omega
      · simp [hx] at hjb
        exact Nat.lt_succ_of_lt (hb jb hjb)
    have := ih (j0 + 1) _ j hb' h
    simp only [List.length_cons]
    omega

/-- `lastIndexOf` never reports an index beyond `fromIdx`. -/
theorem jsLastIndexOf_le (s : List Char) (c : Char) (fromIdx : Nat) :
    jsLastIndexOf s c fromIdx ≤ (fromIdx : Int) := by
  unfold jsLastIndexOf
  cases h : lastIdxAux c (s.take (fromIdx + 1)) 0 none with
  | none =>
    show (-1 : Int) ≤ (fromIdx : Int)
    omega
  | some j =>
    show (j : Int) ≤ (fromIdx : Int)
    have hj := lastIdxAux_lt c (s.take (fromIdx + 1)) 0 none j (by simp) h
    have hlen : (s.take (fromIdx + 1)).length ≤ fromIdx + 1 :=
      List.length_take_le (fromIdx + 1) s
    omega

/-- The sentence-boundary search never looks past `e`. -/
theorem lastSentenceEnd_le (text : List Char) (e : Nat) :
    lastSentenceEnd text e ≤ (e : Int) := by
  unfold lastSentenceEnd
  have h1 := jsLastIndexOf_le text '.' e
  have h2 := jsLastIndexOf_le text '!' e
  have h3 := jsLastIndexOf_le text '?' e
  omega

/-- The chosen chunk end overshoots the window by at most one character
(the sentence terminator sitting exactly at the window end). -/
theorem chunkEnd_le (text : List Char) (maxChars i : Nat) :
    chunkEnd text maxChars i ≤ i + maxChars + 1 := by
  simp only [chunkEnd]
  split
  · split
    · have hls := lastSentenceEnd_le text (min text.length (i + maxChars))
      omega
    · omega
  · omega

/-- Trimming only removes characters. -/
theorem jsTrim_length_le (s : List Char) : (jsTrim s).length ≤ s.length := by
  unfold jsTrim
  have h1 := (List.dropWhile_sublist (l := s) (p := isJsSpace)).length_le
  have h2 := (List.dropWhile_sublist (l := (s.dropWhile isJsSpace).reverse)
    (p := isJsSpace)).length_le
  simp only [List.length_reverse] at h2 ⊢
  omega

/-- A slice is no longer than the index span it asks for. -/
theorem jsSlice_length_le (s : List Char) (i j : Nat) :
    (jsSlice s i j).length ≤ j - i := by
  unfold jsSlice
  have := List.length_take_le j s
  simp only [List.length_drop]
  omega

/-- Every chunk the loop keeps is longer than 100 characters and at most
`maxChars + 1` long. -/
theorem chunkLoop_bounds (text : List Char) (maxChars overlap : Nat) :
    ∀ (fuel i : Nat), ∀ c ∈ chunkLoop text maxChars overlap fuel i,
      100 < c.length ∧ c.length ≤ maxChars + 1 := by
  intro fuel
  induction fuel with
  | zero => intro i c hc; simp [chunkLoop] at hc
  | succ n ih =>
    intro i c hc
    simp only [chunkLoop] at hc
    split at hc
    · have hlen : (jsTrim (jsSlice text i (chunkEnd text maxChars i))).length
          ≤ maxChars + 1 := by
        have h1 := jsTrim_length_le (jsSlice text i (chunkEnd text maxChars i))
        have h2 := jsSlice_length_le text i (chunkEnd text maxChars i)
        have h3 := chunkEnd_le text maxChars i
        omega
      split at hc
      · rename_i hgt
        rcases List.mem_cons.mp hc with h | h
        · subst h; exact ⟨hgt, hlen⟩
        · exact ih _ c h
      · exact ih _ c hc
    · simp at hc

/-- C2 (amended): every chunk `chunkText` produces with the default
parameters is strictly longer than 100 characters and at most
`maxChars + 1 = 1501` characters long — one more than `maxChars`, because
the backward sentence search includes the character at the window end. -/
theorem chunkText_length_bounds (text : List Char) :
    ∀ c ∈ chunkText text 1500 150, 100 < c.length ∧ c.length ≤ 1501 := by
  intro c hc
  have hc' : c ∈ chunkLoop text 1500 150 30 0 := (List.mem_filter.mp hc).1
  exact chunkLoop_bounds text 1500 150 30 0 c hc'

/-- Witness for C2: the full 1200-character chunk of scenario A satisfies
both bounds. -/
theorem chunkText_length_bounds_witness :
    100 < textA.length ∧ textA.length ≤ 1501 :=
  chunkText_length_bounds textA textA (by decide)

/-- C2 (counterexample to the claim as stated): on `textDot` the first of
the 30 produced chunks — not a final overlap remainder — is 1501 characters
long, exceeding the claimed `maxChars = 1500` bound. -/
theorem chunkText_over_1500_counterexample :
    ((chunkText textDot 1500 150).headD []).length = 1501 ∧
    (chunkText textDot 1500 150).length = 30 := by decide

/-- C3 (counterexample): when the second `appendMessage` fails after the
first succeeded, the request fails but the session log keeps the user turn
alone — exactly one entry, so history was partially written, refuting
"either both turns are written or neither is". -/
theorem handleChat_partial_write :
    getHistory "s" (handleChat envBad emptyStore "s" "hello").2
      = [⟨"hello", "user", 5⟩] ∧
    (handleChat envBad emptyStore "s" "hello").1 = Except.error genericChatError ∧
    (getHistory "s" (handleChat envBad emptyStore "s" "hello").2).length ≠ 0 ∧
    (getHistory "s" (handleChat envBad emptyStore "s" "hello").2).length ≠ 2 :=
  ⟨rfl, rfl, by decide, by decide⟩

/-- handleChat when the embedding call throws. -/
theorem handleChat_eq_embedErr (env : ChatEnv) (store : Store) (sid msg : String)
    (e : JsError) (h : env.embed msg = Except.error e) :
    handleChat env store sid msg = (Except.error genericChatError, store) := by
  simp [handleChat, h]

/-- handleChat when the vector search throws. -/
theorem handleChat_eq_searchErr (env : ChatEnv) (store : Store) (sid msg : String)
    (qv : List Rat) (e : JsError) (h1 : env.embed msg = Except.ok qv)
    (h2 : env.search qv 8 = Except.error e) :
    handleChat env store sid msg = (Except.error genericChatError, store) := by
  simp [handleChat, h1, h2]

/-- handleChat when generation throws. -/
theorem handleChat_eq_genErr (env : ChatEnv) (store : Store) (sid msg : String)
    (qv : List Rat) (sr : List Candidate) (e : JsError)
    (h1 : env.embed msg = Except.ok qv) (h2 : env.search qv 8 = Except.ok sr)
    (h3 : env.generate msg ((finalResults sr).map toContextDoc)
      (getHistory sid store) = Except.error e) :
    handleChat env store sid msg = (Except.error genericChatError, store) := by
  simp [handleChat, h1, h2, h3]

/-- handleChat when the first append fails. -/
theorem handleChat_eq_append0Err (env : ChatEnv) (store : Store) (sid msg : String)
    (qv : List Rat) (sr : List Candidate) (reply : String)
    (h1 : env.embed msg = Except.ok qv) (h2 : env.search qv 8 = Except.ok sr)
    (h3 : env.generate msg ((finalResults sr).map toContextDoc)
      (getHistory sid store) = Except.ok reply)
    (h4 : env.appendOk 0 = false) :
    handleChat env store sid msg = (Except.error genericChatError, store) := by
  simp [handleChat, h1, h2, h3, h4]

/-- handleChat when the second append fails: the user turn stays written. -/
theorem handleChat_eq_append1Err (env : ChatEnv) (store : Store) (sid msg : String)
    (qv : List Rat) (sr : List Candidate) (reply : String)
    (h1 : env.embed msg = Except.ok qv) (h2 : env.search qv 8 = Except.ok sr)
    (h3 : env.generate msg ((finalResults sr).map toContextDoc)
      (getHistory sid store) = Except.ok reply)
    (h4 : env.appendOk 0 = true) (h5 : env.appendOk 1 = false) :
    handleChat env store sid msg
      = (Except.error genericChatError,
         appendMessage sid msg "user" env.now store) := by
  simp [handleChat, h1, h2, h3, h4, h5]

/-- handleChat when every step succeeds. -/
theorem handleChat_eq_ok (env : ChatEnv) (store : Store) (sid msg : String)
    (qv : List Rat) (sr : List Candidate) (reply : String)
    (h1 : env.embed msg = Except.ok qv) (h2 : env.search qv 8 = Except.ok sr)
    (h3 : env.generate msg ((finalResults sr).map toContextDoc)
      (getHistory sid store) = Except.ok reply)
    (h4 : env.appendOk 0 = true) (h5 : env.appendOk 1 = true) :
    handleChat env store sid msg
      = (Except.ok (reply, dedupeCitations (finalResults sr)),
         appendMessage sid reply "assistant" env.now
           (appendMessage sid msg "user" env.now store)) := by
  simp [handleChat, h1, h2, h3, h4, h5]

/-- C3 (amended): the session log of a request is never reordered or
touched for other sessions; it is left unchanged, extended by the user turn
alone (second append failed), or extended by the user turn then the
assistant turn in that order; a successful request always appends both; and
any append at all implies generation succeeded first. -/
theorem handleChat_history_atomicity (env : ChatEnv) (store : Store)
    (sid msg : String) :
    (∀ k, k ≠ KEY sid → (handleChat env store sid msg).2 k = store k)
    ∧ ((handleChat env store sid msg).2 (KEY sid) = store (KEY sid)
       ∨ (handleChat env store sid msg).2 (KEY sid)
           = store (KEY sid) ++ [⟨msg, "user", env.now⟩]
       ∨ ∃ reply, (handleChat env store sid msg).2 (KEY sid)
           = store (KEY sid) ++ [⟨msg, "user", env.now⟩, ⟨reply, "assistant", env.now⟩])
    ∧ (∀ r c, (handleChat env store sid msg).1 = Except.ok (r, c) →
        (handleChat env store sid msg).2 (KEY sid)
          = store (KEY sid) ++ [⟨msg, "user", env.now⟩, ⟨r, "assistant", env.now⟩])
    ∧ ((handleChat env store sid msg).2 (KEY sid) ≠ store (KEY sid) →
        ∃ qv sr reply, env.embed msg = Except.ok qv
          ∧ env.search qv 8 = Except.ok sr
          ∧ env.generate msg ((finalResults sr).map toContextDoc)
              (getHistory sid store) = Except.ok reply) := by
  cases hemb : env.embed msg with
  | error e =>
    rw [handleChat_eq_embedErr env store sid msg e hemb]
    exact ⟨fun k _ => rfl, Or.inl rfl, fun r c h => by simp at h,
      fun h => absurd rfl h⟩
  | ok qv =>
    cases hsearch : env.search qv 8 with
    | error e =>
      rw [handleChat_eq_searchErr env store sid msg qv e hemb hsearch]
      exact ⟨fun k _ => rfl, Or.inl rfl, fun r c h => by simp at h,
        fun h => absurd rfl h⟩
    | ok sr =>
      cases hgen : env.generate msg ((finalResults sr).map toContextDoc)
          (getHistory sid store) with
      | error e =>
        rw [handleChat_eq_genErr env store sid msg qv sr e hemb hsearch hgen]
        exact ⟨fun k _ => rfl, Or.inl rfl, fun r c h => by simp at h,
          fun h => absurd rfl h⟩
      | ok reply =>
        cases hap0 : env.appendOk 0 with
        | false =>
          rw [handleChat_eq_append0Err env store sid msg qv sr reply hemb hsearch
            hgen hap0]
          exact ⟨fun k _ => rfl, Or.inl rfl, fun r c h => by simp at h,
            fun h => absurd rfl h⟩
        | true =>
          cases hap1 : env.appendOk 1 with
          | false =>
            rw [handleChat_eq_append1Err env store sid msg qv sr reply hemb
              hsearch hgen hap0 hap1]
            refine ⟨fun k hk => ?_, Or.inr (Or.inl ?_), fun r c h => by simp at h,
              fun h => ⟨qv, sr, reply, rfl, hsearch, hgen⟩⟩
            · simp [appendMessage, hk]
            · simp [appendMessage]
          | true =>
            rw [handleChat_eq_ok env store sid msg qv sr reply hemb hsearch hgen
              hap0 hap1]
            refine ⟨fun k hk => ?_, Or.inr (Or.inr ⟨reply, ?_⟩), fun r c h => ?_,
              fun h => ⟨qv, sr, reply, rfl, hsearch, hgen⟩⟩
            · simp [appendMessage, hk]
            · simp [appendMessage]
            · simp only [Except.ok.injEq, Prod.mk.injEq] at h
              rw [← h.1]
              simp [appendMessage]

/-- Witness for C3's amended theorem: a fully successful request appends
exactly the user turn then the assistant turn. -/
theorem handleChat_history_atomicity_witness :
    (handleChat envOk emptyStore "s" "hi").2 (KEY "s")
      = emptyStore (KEY "s") ++ [⟨"hi", "user", 7⟩, ⟨"ok", "assistant", 7⟩] :=
  (handleChat_history_atomicity envOk emptyStore "s" "hi").2.2.1 "ok" [] rfl

/-- C4: the retrieval filter keeps exactly the candidates scoring at least
`minScore = 0.6`, in input order (a sublist of the input); when that subset
is empty it returns the first three candidates instead; hence a non-empty
input never yields an empty output. -/
theorem retrieval_filter_spec (rs : List Candidate) :
    (∀ c, c ∈ filteredResults rs ↔ c ∈ rs ∧ minScore ≤ c.score)
    ∧ (filteredResults rs ≠ [] → finalResults rs = filteredResults rs)
    ∧ (filteredResults rs = [] → finalResults rs = rs.take 3)
    ∧ List.Sublist (finalResults rs) rs
    ∧ (rs ≠ [] → finalResults rs ≠ []) := by
  refine ⟨fun c => ?_, fun h => ?_, fun h => ?_, ?_, fun h => ?_⟩
  · simp [filteredResults, List.mem_filter]
  · rw [finalResults, if_pos (List.length_pos.mpr h)]
  · rw [finalResults, h]
    simp
  · rw [finalResults]
    split
    · exact List.filter_sublist rs
    · exact List.take_sublist 3 rs
  · rw [finalResults]
    split
    · rename_i hpos
      exact List.length_pos.mp hpos
    · cases rs with
      | nil => exact absurd rfl h
      | cons a t => simp
/-- Witness for C4: five candidates all below the threshold fall back to
the first three, a non-empty result. -/
theorem retrieval_filter_spec_witness :
    finalResults rsLow = rsLow.take 3 ∧ finalResults rsLow ≠ [] :=
  ⟨(retrieval_filter_spec rsLow).2.2.1 (by decide),
   (retrieval_filter_spec rsLow).2.2.2.2 (by decide)⟩

/-- Appending one message extends exactly that session's log by one entry. -/
theorem getHistory_appendMessage (sid m r : String) (t : Nat) (mem : Store) :
    getHistory sid (appendMessage sid m r t mem) = getHistory sid mem ++ [⟨m, r, t⟩] := by
  simp [getHistory, appendMessage]

/-- Folding a batch of appends concatenates them, in order. -/
theorem getHistory_appendAll (sid : String) (msgs : List (String × String × Nat))
    (mem : Store) :
    getHistory sid (appendAll sid msgs mem)
      = getHistory sid mem ++ msgs.map (fun m => ⟨m.1, m.2.1, m.2.2⟩) := by
  induction msgs generalizing mem with
  | nil => simp [appendAll]
  | cons m rest ih =>
    simp only [appendAll, List.foldl_cons, List.map_cons]
    rw [show List.foldl (fun st m => appendMessage sid m.1 m.2.1 m.2.2 st)
        (appendMessage sid m.1 m.2.1 m.2.2 mem) rest
        = appendAll sid rest (appendMessage sid m.1 m.2.1 m.2.2 mem) from rfl]
    rw [ih, getHistory_appendMessage]
    simp

/-- C7: starting from a session that does not exist (or has expired, i.e.
whose log reads empty), the history right after `N` appends has exactly
those `N` entries, oldest first, in append order; and a session absent from
the store reads as the empty sequence. -/
theorem getHistory_after_appends (sid : String)
    (msgs : List (String × String × Nat)) (mem : Store)
    (h : getHistory sid mem = []) :
    getHistory sid (appendAll sid msgs mem)
      = msgs.map (fun m => ⟨m.1, m.2.1, m.2.2⟩)
    ∧ (getHistory sid (appendAll sid msgs mem)).length = msgs.length
    ∧ getHistory sid emptyStore = [] := by
  have hmain := getHistory_appendAll sid msgs mem
  rw [h] at hmain
  simp only [List.nil_append] at hmain
  exact ⟨hmain, by rw [hmain]; simp, rfl⟩

/-- Witness for C7: two appends to a fresh session read back as exactly
those two turns in order (spec scenario D). -/
theorem getHistory_after_appends_witness :
    getHistory "s" (appendAll "s" [("hi", "user", 1), ("hello", "assistant", 2)] emptyStore)
      = [⟨"hi", "user", 1⟩, ⟨"hello", "assistant", 2⟩] :=
  (getHistory_after_appends "s" [("hi", "user", 1), ("hello", "assistant", 2)]
    emptyStore rfl).1

/-- C6: with `maxRetries = 3`, an operation that fails with a transient
error twice and succeeds on the third invocation makes the wrapper return
that success after exactly 3 invocations, having slept `baseDelay * 2^0`
then `baseDelay * 2^1` before the retries; an operation that fails with a
permanent (non-transient) error on the first call propagates that error at
once, after exactly 1 invocation and no sleep. -/
theorem retryWithBackoff_spec {α : Type} (f g : Nat → Outcome α) (d : Nat)
    (e0 e1 ep : JsError) (a : α)
    (h0 : f 0 = Outcome.err e0) (ht0 : isTransient e0 = true)
    (h1 : f 1 = Outcome.err e1) (ht1 : isTransient e1 = true)
    (h2 : f 2 = Outcome.ok a)
    (hp : g 0 = Outcome.err ep) (htp : isTransient ep = false) :
    retryWithBackoff f 3 d = ⟨Except.ok (some a), 3, [d * 2 ^ 0, d * 2 ^ 1]⟩
    ∧ retryWithBackoff g 3 d = ⟨Except.error ep, 1, []⟩ := by
  constructor
  · simp [retryWithBackoff, retryGo, h0, h1, h2, ht0, ht1]
  · simp [retryWithBackoff, retryGo, hp, htp]

/-- Witness for C6 at a concrete transient operation (two 503s then the
value 7) and a concrete permanent one (a 401). -/
theorem retryWithBackoff_spec_witness :
    retryWithBackoff fOp 3 1000
      = ⟨Except.ok (some 7), 3, [1000 * 2 ^ 0, 1000 * 2 ^ 1]⟩
    ∧ retryWithBackoff gOp 3 1000 = ⟨Except.error ⟨some 401, "bad auth"⟩, 1, []⟩ :=
  retryWithBackoff_spec fOp gOp 1000 ⟨some 503, ""⟩ ⟨some 503, ""⟩
    ⟨some 401, "bad auth"⟩ 7 rfl (by decide) rfl (by decide) rfl rfl (by decide)

/-- The `processed` counter equals the number of successfully ingested
URLs, whatever happened on the other URLs. -/
theorem processedCount_eq_countP (env : IngestEnv) (urls : List String) :
    processedCount env urls
      = urls.countP (fun u => decide (stepResult env u = StepResult.success)) := by
  have key : ∀ (l : List String) (n : Nat),
      l.foldl (fun n u => if stepResult env u = StepResult.success then n + 1 else n) n
        = n + l.countP (fun u => decide (stepResult env u = StepResult.success)) := by
    intro l
    induction l with
    | nil => intro n; simp
    | cons u rest ih =>
      intro n
      simp only [List.foldl_cons, List.countP_cons, ih]
      by_cases h : stepResult env u = StepResult.success
      · simp [h]
        omega
      · simp [h]
  simpa [processedCount] using key urls 0

/-- C8: in the ingestion batch loop, a URL whose extracted text is shorter
than 500 characters is skipped — neither an error nor counted as processed;
an exception at any URL leaves the processing of every other URL unchanged
(the count over `pre ++ v :: post` always decomposes across `v`); and the
final report's denominator is the total number of input URLs. -/
theorem ingest_batch_spec (env : IngestEnv) (pre post : List String) (u : String)
    (doc : Doc) (h1 : env.scrape u = Except.ok doc) (h2 : doc.text.length < 500) :
    stepResult env u = StepResult.skipped
    ∧ (∀ v, processedCount env (pre ++ v :: post)
        = processedCount env pre
          + (if stepResult env v = StepResult.success then 1 else 0)
          + processedCount env post)
    ∧ processedCount env (pre ++ u :: post)
        = processedCount env pre + processedCount env post
    ∧ (ingestReport env (pre ++ u :: post)).2 = (pre ++ u :: post).length := by
  have hskip : stepResult env u = StepResult.skipped := by
    simp [stepResult, h1, h2]
  have hdec : ∀ v, processedCount env (pre ++ v :: post)
      = processedCount env pre
        + (if stepResult env v = StepResult.success then 1 else 0)
        + processedCount env post := by
    intro v
    simp only [processedCount_eq_countP, List.countP_append, List.countP_cons]
    by_cases h : stepResult env v = StepResult.success <;> (simp [h]; try omega)
  refine ⟨hskip, hdec, ?_, rfl⟩
  rw [hdec u, hskip]
  simp

/-- Witness for C8: with a failing URL before and a successful URL after,
the skipped short URL contributes nothing and the others are unaffected. -/
theorem ingest_batch_spec_witness :
    processedCount envIngest (["a"] ++ "u" :: ["b"])
      = processedCount envIngest ["a"] + processedCount envIngest ["b"] :=
  (ingest_batch_spec envIngest ["a"] ["b"] "u" docShort rfl (by decide)).2.2.1

/-- Each CHAT HISTORY line renders as the upper-cased role followed by
`undefined`: the code formats `m.content`, a property the stored turns do
not have. -/
theorem formatHistLine_eq (m : StoredTurn) :
    formatHistLine m = m.role.toUpper ++ ": " ++ "undefined" := rfl

/-- C9: the session store persists the turn text under `message`, but the
prompt builder reads `content`; hence every line of the prompt's CHAT
HISTORY section is `ROLE: undefined`, and the section is unchanged when
every stored message text is erased — the stored text never reaches the
prompt. -/
theorem histText_ignores_message (history : List StoredTurn) :
    histText history
      = String.intercalate "\n"
          ((history.drop (history.length - 6)).map
            (fun m => m.role.toUpper ++ ": " ++ "undefined"))
    ∧ histText (history.map (fun t => { t with message := "" })) = histText history := by
  have hfun : formatHistLine = fun m : StoredTurn =>
      m.role.toUpper ++ ": " ++ "undefined" := funext formatHistLine_eq
  constructor
  · rw [histText, hfun]
  · rw [histText, histText, hfun, List.length_map, ← List.map_drop, List.map_map]
    rfl

/-- A list mapping injectively (no duplicate images) has equal elements
whenever their images agree. -/
theorem map_nodup_inj {A B : Type} (f : A → B) (l : List A)
    (h : (l.map f).Nodup) :
    ∀ x ∈ l, ∀ y ∈ l, f x = f y → x = y := by
  induction l with
  | nil => intro x hx; simp at hx
  | cons a t ih =>
    simp only [List.map_cons, List.nodup_cons] at h
    intro x hx y hy hxy
    rcases List.mem_cons.mp hx with hx1 | hx1 <;>
      rcases List.mem_cons.mp hy with hy1 | hy1
    · rw [hx1, hy1]
    · exfalso
      apply h.1
      rw [hx1] at hxy
      rw [hxy]
      exact List.mem_map_of_mem f hy1
    · exfalso
      apply h.1
      rw [hy1] at hxy
      rw [← hxy]
      exact List.mem_map_of_mem f hx1
    · exact ih h.2 x hx1 y hy1 hxy

theorem mem_firstOccs (a : String) (l : List String) :
    a ∈ firstOccs l ↔ a ∈ l := by
  induction l using firstOccs.induct with
  | case1 => simp [firstOccs]
  | case2 u us ih =>
    rw [firstOccs]
    simp only [List.mem_cons, ih, List.mem_filter, bne_iff_ne, ne_eq]
    by_cases h : a = u <;> simp [h]

theorem firstOccs_nodup (l : List String) : (firstOccs l).Nodup := by
  induction l using firstOccs.induct with
  | case1 => simp [firstOccs]
  | case2 u us ih =>
    rw [firstOccs]
    refine List.nodup_cons.mpr ⟨?_, ih⟩
    intro hu
    rw [mem_firstOccs] at hu
    simp at hu

theorem firstOccs_length_le (l : List String) :
    (firstOccs l).length ≤ l.length := by
  induction l using firstOccs.induct with
  | case1 => simp [firstOccs]
  | case2 u us ih =>
    rw [firstOccs]
    simp only [List.length_cons]
    have := List.length_filter_le (fun v => v != u) us
    omega

theorem firstOccs_append_singleton (y : String) (xs : List String) :
    firstOccs (xs ++ [y])
      = if y ∈ xs then firstOccs xs else firstOccs xs ++ [y] := by
  induction xs using firstOccs.induct with
  | case1 => simp [firstOccs]
  | case2 u us ih =>
    by_cases hyu : y = u
    · rw [List.cons_append, firstOccs]
      rw [List.filter_append]
      have : [y].filter (fun v => v != u) = [] := by simp [hyu]
      rw [this, List.append_nil]
      rw [if_pos (by simp [hyu])]
      rw [firstOccs]
    · rw [List.cons_append, firstOccs]
      rw [List.filter_append]
      have : [y].filter (fun v => v != u) = [y] := by simp [hyu]
      rw [this, ih]
      by_cases hyus : y ∈ us
      · rw [if_pos (by simp [hyus, bne_iff_ne, hyu]), if_pos (by simp [hyus])]
        rw [firstOccs]
      · rw [if_neg (by simp [bne_iff_ne]; intro hmem; exact absurd hmem (by simp [hyus, hyu]))]
        rw [if_neg (by simp [hyus, hyu])]
        rw [firstOccs]
        simp

theorem maxScoreIn_append_ne (u : String) (p : List Candidate) (r : Candidate)
    (h : r.url ≠ u) : maxScoreIn u (p ++ [r]) = maxScoreIn u p := by
  induction p with
  | nil => simp [maxScoreIn, h]
  | cons c rest ih =>
    rw [List.cons_append, maxScoreIn, ih, maxScoreIn]

theorem maxScoreIn_append_none (u : String) (p : List Candidate) (r : Candidate)
    (h : r.url = u) (h2 : maxScoreIn u p = none) :
    maxScoreIn u (p ++ [r]) = some r.score := by
  induction p with
  | nil => simp [maxScoreIn, h]
  | cons c rest ih =>
    cases hm : maxScoreIn u rest with
    | some m =>
      exfalso
      rw [maxScoreIn] at h2
      simp only [hm] at h2
      split at h2 <;> exact Option.noConfusion h2
    | none =>
      have hcu : ¬ c.url = u := by
        rw [maxScoreIn] at h2
        simp only [hm] at h2
        intro hc
        rw [if_pos hc] at h2
        exact Option.noConfusion h2
      rw [List.cons_append, maxScoreIn]
      simp only [ih hm]
      rw [if_neg hcu]

theorem maxScoreIn_append_some (u : String) (p : List Candidate) (r : Candidate)
    (h : r.url = u) :
    ∀ m, maxScoreIn u p = some m →
      maxScoreIn u (p ++ [r]) = some (max m r.score) := by
  induction p with
  | nil => intro m h2; simp [maxScoreIn] at h2
  | cons c rest ih =>
    intro m h2
    cases hm : maxScoreIn u rest with
    | none =>
      rw [maxScoreIn] at h2
      simp only [hm] at h2
      by_cases hcu : c.url = u
      · rw [if_pos hcu] at h2
        injection h2 with h2
        rw [List.cons_append, maxScoreIn]
        simp only [maxScoreIn_append_none u rest r h hm]
        rw [if_pos hcu, h2]
      · rw [if_neg hcu] at h2
        exact Option.noConfusion h2
    | some m0 =>
      rw [maxScoreIn] at h2
      simp only [hm] at h2
      by_cases hcu : c.url = u
      · rw [if_pos hcu] at h2
        injection h2 with h2
        rw [List.cons_append, maxScoreIn]
        simp only [ih m0 hm]
        rw [if_pos hcu, ← h2, max_assoc]
      · rw [if_neg hcu] at h2
        injection h2 with h2
        rw [List.cons_append, maxScoreIn]
        simp only [ih m0 hm]
        rw [if_neg hcu, h2]

theorem maxScoreIn_eq_none (u : String) (p : List Candidate) :
    maxScoreIn u p = none ↔ ∀ c ∈ p, c.url ≠ u := by
  induction p with
  | nil => simp [maxScoreIn]
  | cons c rest ih =>
    cases hm : maxScoreIn u rest with
    | none =>
      have hrest := ih.mp hm
      rw [maxScoreIn]
      simp only [hm]
      by_cases hcu : c.url = u
      · simp [hcu]
      · rw [if_neg hcu]
        constructor
        · intro _ x hx
          rcases List.mem_cons.mp hx with h | h
          · rw [h]; exact hcu
          · exact hrest x h
        · intro _
          rfl
    | some m =>
      have hex : ¬∀ x ∈ rest, x.url ≠ u := by
        intro hall
        rw [ih.mpr hall] at hm
        exact Option.noConfusion hm
      rw [maxScoreIn]
      simp only [hm]
      constructor
      · intro h
        exfalso
        split at h <;> exact Option.noConfusion h
      · intro hall
        exfalso
        exact hex fun x hx => hall x (List.mem_cons_of_mem c hx)

theorem setCite_map_url (acc : List Citation) (r : Candidate)
    (h : r.url ∈ acc.map (fun e => e.url)) :
    (setCite acc r).map (fun e => e.url) = acc.map (fun e => e.url) := by
  induction acc with
  | nil => simp at h
  | cons e rest ih =>
    rw [setCite]
    by_cases he : e.url = r.url
    · rw [if_pos he]
      simp [mkCitation, he]
    · rw [if_neg he]
      have h' : r.url ∈ rest.map (fun e => e.url) := by
        simp only [List.map_cons, List.mem_cons] at h
        rcases h with h | h
        · exact absurd h.symm he
        · exact h
      simp [ih h']

theorem mem_setCite (acc : List Citation) (r : Candidate)
    (hnd : (acc.map (fun e => e.url)).Nodup) :
    ∀ x ∈ setCite acc r, x = mkCitation r ∨ (x ∈ acc ∧ x.url ≠ r.url) := by
  induction acc with
  | nil =>
    intro x hx
    rw [setCite] at hx
    exact Or.inl (List.mem_singleton.mp hx)
  | cons e rest ih =>
    simp only [List.map_cons, List.nodup_cons] at hnd
    intro x hx
    rw [setCite] at hx
    by_cases he : e.url = r.url
    · rw [if_pos he] at hx
      rcases List.mem_cons.mp hx with h | h
      · exact Or.inl h
      · right
        refine ⟨List.mem_cons_of_mem _ h, fun hxr => ?_⟩
        apply hnd.1
        have : x.url ∈ rest.map (fun e => e.url) := List.mem_map_of_mem _ h
        rw [hxr, ← he] at this
        exact this
    · rw [if_neg he] at hx
      rcases List.mem_cons.mp hx with h | h
      · right
        refine ⟨by rw [h]; exact List.mem_cons_self _ _, ?_⟩
        rw [h]
        exact fun hh => he hh
      · rcases ih hnd.2 x h with h1 | ⟨h1, h2⟩
        · exact Or.inl h1
        · exact Or.inr ⟨List.mem_cons_of_mem _ h1, h2⟩

theorem citeStep_inv (p : List Candidate) (acc : List Citation) (r : Candidate)
    (h : CiteInv p acc) : CiteInv (p ++ [r]) (citeStep acc r) := by
  obtain ⟨hurl, hmax⟩ := h
  rw [citeStep]
  cases hf : acc.find? (fun e => e.url == r.url) with
  | none =>
    have hnone : ∀ e ∈ acc, e.url ≠ r.url := by
      intro e he heq
      have := List.find?_eq_none.mp hf e he
      simp [heq] at this
    have hnotp : r.url ∉ p.map (fun c => c.url) := by
      intro hin
      have h1 : r.url ∈ firstOccs (p.map (fun c => c.url)) :=
        (mem_firstOccs _ _).mpr hin
      rw [← hurl] at h1
      obtain ⟨e, he, hee⟩ := List.mem_map.mp h1
      exact hnone e he hee
    constructor
    · simp only [List.map_append, List.map_cons, List.map_nil, mkCitation]
      rw [firstOccs_append_singleton, if_neg hnotp, hurl]
    · intro x hx
      rcases List.mem_append.mp hx with h1 | h1
      · rw [maxScoreIn_append_ne x.url p r fun hh => hnone x h1 hh.symm]
        exact hmax x h1
      · have hx1 : x = mkCitation r := List.mem_singleton.mp h1
        subst hx1
        have hnonep : maxScoreIn r.url p = none := by
          rw [maxScoreIn_eq_none]
          intro c hc hcu
          exact hnotp (hcu ▸ List.mem_map_of_mem (fun c => c.url) hc)
        exact maxScoreIn_append_none r.url p r rfl hnonep
  | some e0 =>
    have he0 : e0 ∈ acc := List.mem_of_find?_eq_some hf
    have he0url : e0.url = r.url := by
      have := List.find?_some hf
      simpa using this
    have hrin : r.url ∈ acc.map (fun e => e.url) := by
      rw [← he0url]
      exact List.mem_map_of_mem _ he0
    have hrinp : r.url ∈ p.map (fun c => c.url) := by
      rw [hurl] at hrin
      exact (mem_firstOccs _ _).mp hrin
    have hnd : (acc.map (fun e => e.url)).Nodup := by
      rw [hurl]
      exact firstOccs_nodup _
    have hfo : firstOccs ((p ++ [r]).map (fun c => c.url))
        = firstOccs (p.map (fun c => c.url)) := by
      simp only [List.map_append, List.map_cons, List.map_nil]
      rw [firstOccs_append_singleton, if_pos hrinp]
    have hm0 : maxScoreIn r.url p = some e0.score := he0url ▸ hmax e0 he0
    show CiteInv (p ++ [r]) (if e0.score < r.score then setCite acc r else acc)
    by_cases hsc : e0.score < r.score
    · rw [if_pos hsc]
      constructor
      · rw [setCite_map_url acc r hrin, hurl, hfo]
      · intro x hx
        rcases mem_setCite acc r hnd x hx with hxr | ⟨hxa, hxne⟩
        · subst hxr
          show maxScoreIn r.url (p ++ [r]) = some r.score
          rw [maxScoreIn_append_some r.url p r rfl e0.score hm0,
            max_eq_right (le_of_lt hsc)]
        · rw [maxScoreIn_append_ne x.url p r fun hh => hxne hh.symm]
          exact hmax x hxa
    · rw [if_neg hsc]
      constructor
      · rw [hurl, hfo]
      · intro x hx
        by_cases hxu : x.url = r.url
        · have hxe : x = e0 :=
            map_nodup_inj (fun e => e.url) acc hnd x hx e0 he0
              (by show x.url = e0.url; rw [hxu, he0url])
          subst hxe
          rw [hxu, maxScoreIn_append_some r.url p r rfl _ hm0,
            max_eq_left (le_of_not_lt hsc)]
        · rw [maxScoreIn_append_ne x.url p r fun hh => hxu hh.symm]
          exact hmax x hx

theorem citeFold_inv (rs : List Candidate) :
    ∀ (p : List Candidate) (acc : List Citation), CiteInv p acc →
      CiteInv (p ++ rs) (rs.foldl citeStep acc) := by
  induction rs with
  | nil =>
    intro p acc h
    simpa using h
  | cons r rest ih =>
    intro p acc h
    rw [List.foldl_cons]
    have := ih (p ++ [r]) (citeStep acc r) (citeStep_inv p acc r h)
    simpa [List.append_assoc] using this

/-- C5: the citation deduplication yields exactly one citation per distinct
url of the candidate list, with urls in first-occurrence (insertion) order,
each citation's score equal to the maximum score among the candidates
sharing its url (a strictly greater score replaces, a tie keeps the first),
and hence at most as many citations as candidates. -/
theorem dedupe_citations_spec (rs : List Candidate) :
    (dedupeCitations rs).map (fun e => e.url) = firstOccs (rs.map (fun r => r.url))
    ∧ ((dedupeCitations rs).map (fun e => e.url)).Nodup
    ∧ (∀ e ∈ dedupeCitations rs, maxScoreIn e.url rs = some e.score)
    ∧ (dedupeCitations rs).length ≤ rs.length := by
  have h0 : CiteInv [] [] := by
    constructor
    · simp [firstOccs]
    · intro e he
      simp at he
  have h := citeFold_inv rs [] [] h0
  rw [List.nil_append] at h
  obtain ⟨hurl, hmax⟩ := h
  have hurl' : (dedupeCitations rs).map (fun e => e.url)
      = firstOccs (rs.map (fun r => r.url)) := hurl
  refine ⟨hurl', ?_, hmax, ?_⟩
  · rw [hurl']
    exact firstOccs_nodup _
  · have h1 : (dedupeCitations rs).length
        = ((dedupeCitations rs).map (fun e => e.url)).length :=
      (List.length_map _ _).symm
    rw [h1, hurl']
    calc (firstOccs (rs.map (fun r => r.url))).length
        ≤ (rs.map (fun r => r.url)).length := firstOccs_length_le _
      _ = rs.length := List.length_map _ _

/-- Witness for C5: on candidates with urls a, b, a (scores 0.9, 0.5, 0.95)
the citation for url a carries the maximum score 0.95. -/
theorem dedupe_citations_spec_witness :
    maxScoreIn "a" rsDup = some (mkRat 19 20) :=
  (dedupe_citations_spec rsDup).2.2.1 ⟨"t3", "a", mkRat 19 20⟩ (by decide)

end RagBot
